import Mathlib

/-
  Verification development for the document ingestion service
  (src/src/main.py and src/scripts/ingest-from-minio.py).

  Texts are modelled as `List Char` (Python `str` is a sequence of Unicode
  code points; Lean's `Char` is a Unicode scalar value).  Fallible
  operations return `Except`.  The external collaborators (database,
  filesystem, JSON parser) are passed in as explicit function parameters,
  as the spec's design notes (§9) prescribe for configuration and state.
-/

namespace DocIngest

/-- Total length of a list of segments (sum of segment lengths). -/
def totalLen (l : List (List Char)) : Nat := (l.map List.length).sum

/-! ## Text sanitizer (`clean_text`, src/src/main.py lines 43-60) -/

/-- Control characters removed by the sanitizer's regular expression
`[\x01-\x08\x0B\x0C\x0E-\x1F\x7F]` (newline, tab and carriage return are kept). -/
def isStrippedControl (c : Char) : Bool :=
  (decide (0x01 ≤ c.toNat) && decide (c.toNat ≤ 0x08)) ||
  (c.toNat == 0x0B) || (c.toNat == 0x0C) ||
  (decide (0x0E ≤ c.toNat) && decide (c.toNat ≤ 0x1F)) ||
  (c.toNat == 0x7F)

/-- Sanitizer from src/src/main.py lines 43-60: drop null bytes
(`text.replace('\x00', '')`), then drop the control characters matched by
the regex.  The final `text.encode('utf-8', errors='ignore').decode('utf-8')`
step is the identity on sequences of Unicode scalar values, which every
Lean `Char` already is, so it introduces no further change. -/
def clean_text (text : List Char) : List Char :=
  (text.filter (fun c => c != '\x00')).filter (fun c => !isStrippedControl c)

/-! ## Chunker

`chunk_text` (src/src/main.py lines 63-77) delegates the split itself to
the external `RecursiveCharacterTextSplitter`; only the configuration
(`chunk_size`, `chunk_overlap`, `length_function=len`) and the
`enumerate`-numbering live in the repository.  The splitter below is
therefore *modelled from the spec* (§4.1): try an ordered list of
separators from coarsest to finest; split the text into segments on the
chosen separator; greedily accumulate segments into a running chunk until
adding the next segment would exceed `chunk_size`; when closing a chunk,
carry back the trailing segments whose combined length is closest to
`chunk_overlap` without exceeding it; a segment longer than `chunk_size`
is recursively split with the next finer separator; the final fallback is
a character-level split. -/

/-- One pass of separator splitting.  `fuel` bounds the recursion (the
caller passes the text length, which always suffices); the separator is
kept attached to the end of the segment it terminates, so the segments
concatenate back to the original text. -/
def splitSepAux (sep : List Char) : Nat → List Char → List Char → List (List Char)
  | 0, acc, cs => [acc ++ cs]
  | _ + 1, acc, [] => [acc]
  | fuel + 1, acc, c :: rest =>
    if sep ≠ [] ∧ sep.isPrefixOf (c :: rest) then
      (acc ++ sep) :: splitSepAux sep fuel [] ((c :: rest).drop sep.length)
    else
      splitSepAux sep fuel (acc ++ [c]) rest

/-- Modelled from the spec: "For each candidate separator, split the text
into segments".  Empty segments are discarded (they contribute nothing to
a chunk). -/
def splitKeepSep (sep : List Char) (text : List Char) : List (List Char) :=
  (splitSepAux sep text.length [] text).filter (fun s => !s.isEmpty)

/-- Modelled from the spec: when a chunk is closed, "start the next chunk
by carrying back ... the last N segments whose combined length is closest
to `chunk_overlap` without exceeding it": the longest suffix of the closed
chunk's segments whose total length is at most `budget`. -/
def carryTail (budget : Nat) : List (List Char) → List (List Char)
  | [] => []
  | s :: rest =>
    if totalLen (s :: rest) ≤ budget then s :: rest
    else carryTail budget rest

/-- Modelled from the spec: "greedily accumulate segments into a running
chunk until adding the next segment would exceed `chunk_size`; when it
would, close the current chunk, and start the next chunk by carrying back
the trailing `chunk_overlap` characters" (at segment granularity).  The
carry budget is additionally capped so that the carried text plus the
incoming segment still fits in `chunk_size`. -/
def mergeAux (size ov : Nat) : List (List Char) → List (List Char) → List (List Char)
  | cur, [] => if cur = [] then [] else [cur.flatten]
  | cur, d :: rest =>
    if totalLen cur + d.length ≤ size ∨ cur = [] then
      mergeAux size ov (cur ++ [d]) rest
    else
      cur.flatten :: mergeAux size ov (carryTail (min ov (size - d.length)) cur ++ [d]) rest

/-- Merge a run of segments into chunks of at most `size` characters with
overlap carry-back of at most `ov` characters. -/
def mergeSplits (size ov : Nat) (segs : List (List Char)) : List (List Char) :=
  mergeAux size ov [] segs

/-- Maximal runs of "good" segments (length at most `size`) are kept
together for merging; an oversized segment is isolated (`Sum.inr`) so it
can be split recursively with the finer separators. -/
def groupGood (size : Nat) : List (List Char) → List (Sum (List (List Char)) (List Char))
  | [] => []
  | s :: rest =>
    if s.length ≤ size then
      match groupGood size rest with
      | Sum.inl run :: gs => Sum.inl (s :: run) :: gs
      | gs => Sum.inl [s] :: gs
    else Sum.inr s :: groupGood size rest

/-- The text a group stands for: a good run stands for its concatenation,
an oversized segment for itself. -/
def flatGroup : Sum (List (List Char)) (List Char) → List Char
  | Sum.inl run => run.flatten
  | Sum.inr big => big

/-- Process the groups in order: merge each good run, recursively split
each oversized segment with the finer separators (`recFn`). -/
def processGroups (size ov : Nat) (recFn : List Char → List (List Char)) :
    List (Sum (List (List Char)) (List Char)) → List (List Char)
  | [] => []
  | Sum.inl run :: gs => mergeSplits size ov run ++ processGroups size ov recFn gs
  | Sum.inr big :: gs => recFn big ++ processGroups size ov recFn gs

/-- Modelled from the spec: the recursive splitter.  The base case (the
separator list exhausted) is the spec's "empty string meaning
character-level split": every character is its own segment, so the greedy
merge hard-splits at the `chunk_size` boundary with `chunk_overlap`
carry-back. -/
def splitTextRec (size ov : Nat) : List (List Char) → List Char → List (List Char)
  | [] => fun text => mergeSplits size ov (text.map (fun c => [c]))
  | sep :: rest => fun text =>
    processGroups size ov (splitTextRec size ov rest)
      (groupGood size (splitKeepSep sep text))

/-- The ordered separator candidates, coarsest to finest: paragraph break,
line break, space; the implicit final candidate is the character-level
split (the base case of `splitTextRec`). -/
def default_separators : List (List Char) := [['\n', '\n'], ['\n'], [' ']]

/-- The full splitter: `splitter.split_text(text)` with the configured
`chunk_size` and `chunk_overlap`. -/
def splitText (size ov : Nat) (text : List Char) : List (List Char) :=
  splitTextRec size ov default_separators text

/-- A produced chunk: its text and its 0-based position
(src/src/main.py lines 74-77). -/
structure Chunk where
  text : List Char
  chunk_num : Nat
deriving DecidableEq, Repr

/-- `chunk_text` (src/src/main.py lines 63-77): split, then tag each piece
with its index via `enumerate`. -/
def chunk_text (size ov : Nat) (text : List Char) : List Chunk :=
  (splitText size ov text).enum.map (fun p => { text := p.2, chunk_num := p.1 })

/-- Default configuration (src/src/main.py lines 32-33). -/
def CHUNK_SIZE : Nat := 800

/-- Default configuration (src/src/main.py lines 32-33). -/
def CHUNK_OVERLAP : Nat := 150

/-! ## Reassembly predicate

`ReasmFrom ov prev chunks t` says: the chunks each decompose into a
carried prefix of at most `ov` characters — text shared with (a suffix of)
the chunk before them — followed by fresh text, and the fresh parts
concatenate to `t`.  `Reassembles ov chunks text` says the whole chunk
sequence reconstructs `text` this way, the first chunk carrying nothing. -/
inductive ReasmFrom (ov : Nat) : List Char → List (List Char) → List Char → Prop
  | nil (prev : List Char) : ReasmFrom ov prev [] []
  | cons (prev c : List Char) (cs : List (List Char)) (t : List Char) (k : Nat)
      (hk : k ≤ ov) (hsuf : (c.take k) <:+ prev)
      (hrec : ReasmFrom ov c cs t) : ReasmFrom ov prev (c :: cs) (c.drop k ++ t)

/-- See `ReasmFrom`: the chunk sequence reconstructs `text`, the first
chunk carrying nothing over. -/
inductive Reassembles (ov : Nat) : List (List Char) → List Char → Prop
  | nil : Reassembles ov [] []
  | cons (c : List Char) (cs : List (List Char)) (t : List Char)
      (hrec : ReasmFrom ov c cs t) : Reassembles ov (c :: cs) (c ++ t)

/-! ## Persistence (`insert_chunks`, src/src/main.py lines 80-115) -/

/-- One persisted row (spec §6): chunk text, owning document identifier,
sequence number, metadata.  The `text_search` tsvector column is derived
by the external store from the same text and is not modelled separately. -/
structure Row where
  text : List Char
  document_uri : String
  chunk_num : Nat
  metadata : List (String × String)
deriving DecidableEq, Repr

/-- The row built for one chunk (the INSERT at lines 97-106). -/
def mkRow (c : Chunk) (uri : String) (md : List (String × String)) : Row :=
  { text := c.text, document_uri := uri, chunk_num := c.chunk_num, metadata := md }

/-- `insert_chunks` (src/src/main.py lines 80-115): attempt every chunk in
order; a failed insert (`db c = false`, the `except` branch) is logged and
skipped (`continue`), a successful one increments `total_inserted`.
Returns the count together with the rows actually written. -/
def insert_chunks (db : Chunk → Bool) (chunks : List Chunk) (uri : String)
    (md : List (String × String)) : Nat × List Row :=
  match chunks with
  | [] => (0, [])
  | c :: rest =>
    if db c then
      let r := insert_chunks db rest uri md
      (r.1 + 1, mkRow c uri md :: r.2)
    else
      insert_chunks db rest uri md

/-! ## Single-document ingestion endpoint
(`ingest_document`, src/src/main.py lines 145-230) -/

/-- Response model (src/src/main.py lines 36-40). -/
structure IngestResponse where
  success : Bool
  document_uri : String
  chunks_created : Nat
  message : String
deriving DecidableEq, Repr

/-- The failure modes of one ingest call: an `HTTPException(status, detail)`;
a failed database connection (the `asyncpg.connect` at lines 206-212,
outside the `try`, whose exception propagates out of the endpoint); or an
`AttributeError` raised when a non-string value — the `File(None)` /
`Form(None)` `FieldInfo` sentinel left in place by a direct Python call —
reaches `clean_text` (no `.replace`) or `file.read()` (no `.read`). -/
inductive IngestError where
  | http (status : Nat) (detail : String)
  | connectFailed
  | attributeError (detail : String)
deriving DecidableEq, Repr

/-- An uploaded file: its name and its content after the
`content.decode('utf-8', errors='replace')` step (which never fails, so it
is modelled by storing the decoded text directly). -/
structure FileUpload where
  filename : String
  content : List Char
deriving DecidableEq, Repr

/-- The value bound to the endpoint's `file` parameter.  Over HTTP,
FastAPI's dependency injection binds either `None` or an upload; but a
direct Python call that omits the argument (as `ingest_batch` does at
line 244) leaves the declared default `File(None)` in place — a pydantic
`FieldInfo` sentinel object, which defines neither `__bool__` nor
`__len__` and is therefore truthy, yet is not a file. -/
inductive PyFile where
  | pyNone
  | fieldInfo
  | upload (f : FileUpload)
deriving DecidableEq, Repr

/-- The value bound to the endpoint's `text_content` parameter: `None`, a
string, or — in a direct Python call that omits the argument — the truthy
`Form(None)` `FieldInfo` sentinel default (see `PyFile`).  `document_uri`
and `metadata` need no sentinel state: every in-repo direct call passes
them explicitly (line 244), and HTTP requests have them resolved by the
framework. -/
inductive PyText where
  | pyNone
  | fieldInfo
  | str (s : List Char)
deriving DecidableEq, Repr

/-- Python truthiness of an optional string: `None` and `""` are falsy. -/
def truthyStr : Option String → Bool
  | none => false
  | some s => s != ""

/-- Python truthiness of the `file` argument: `None` is falsy; an upload
object and the `FieldInfo` sentinel (no `__bool__`/`__len__`) are truthy. -/
def truthyFile : PyFile → Bool
  | PyFile.pyNone => false
  | PyFile.fieldInfo => true
  | PyFile.upload _ => true

/-- Python truthiness of the `text_content` argument: `None` and `""` are
falsy; a non-empty string and the `FieldInfo` sentinel are truthy. -/
def truthyText : PyText → Bool
  | PyText.pyNone => false
  | PyText.fieldInfo => true
  | PyText.str s => !s.isEmpty

/-- The `file.filename.endswith(('.md', '.txt', '.html'))` check
(line 179), expressed on the character sequence. -/
def hasSupportedExt (name : String) : Bool :=
  ".md".toList.isSuffixOf name.toList || ".txt".toList.isSuffixOf name.toList ||
    ".html".toList.isSuffixOf name.toList

/-- The shared tail of the endpoint (src/src/main.py lines 196-230): clean
the text (done by the caller), chunk it, connect (`connectOk` says whether
`asyncpg.connect` succeeds), insert the chunks best-effort, and answer
with the inserted count. -/
def finishIngest (db : Chunk → Bool) (connectOk : Bool) (size ov : Nat)
    (text : List Char) (uri : String) (md : List (String × String)) :
    Except IngestError (IngestResponse × List Row) :=
  let chunks := chunk_text size ov text
  if connectOk then
    let r := insert_chunks db chunks uri md
    Except.ok
      ({ success := true, document_uri := uri, chunks_created := r.1,
         message := "Successfully ingested " ++ toString r.1 ++ " chunks from " ++ uri },
       r.2)
  else Except.error IngestError.connectFailed

/-- `ingest_document` (src/src/main.py lines 145-230).  External
collaborators are explicit: `fs` resolves a path to file contents (`none`
when `path.exists()` is false), `db` decides each chunk insert, `jp` is
the external `json.loads` (`none` when it raises, in which case the
`except` at line 167 substitutes the empty mapping).  The branch order
mirrors the source: the `any([...])` guard, then `if text_content:`,
`elif file:`, `else` path resolution.  A truthy `text_content` that is
not a string (the `Form(None)` sentinel — and `None` itself would behave
the same) makes `clean_text(text_content)` at line 172 raise
`AttributeError`; a truthy non-upload `file` makes `await file.read()`
at line 175 raise likewise. -/
def ingest_document (fs : String → Option (List Char)) (db : Chunk → Bool)
    (connectOk : Bool) (size ov : Nat)
    (jp : String → Option (List (String × String)))
    (file : PyFile) (document_uri : Option String)
    (text_content : PyText) (metadata : String) :
    Except IngestError (IngestResponse × List Row) :=
  if ¬(truthyFile file || truthyStr document_uri || truthyText text_content) then
    Except.error (IngestError.http 400 "Must provide file, document_uri, or text_content")
  else
    let metadata_dict := (jp metadata).getD []
    if truthyText text_content then
      match text_content with
      | PyText.str tc =>
        let text := clean_text tc
        let uri := if truthyStr document_uri then document_uri.getD "" else "direct_input"
        finishIngest db connectOk size ov (clean_text text) uri metadata_dict
      | _ =>
        Except.error (IngestError.attributeError "FieldInfo object has no attribute replace")
    else
      match file with
      | PyFile.upload f =>
        if hasSupportedExt f.filename then
          finishIngest db connectOk size ov (clean_text f.content) f.filename
            (metadata_dict ++ [("filename", f.filename)])
        else Except.error (IngestError.http 400 ("Unsupported file type: " ++ f.filename))
      | PyFile.fieldInfo =>
        Except.error (IngestError.attributeError "FieldInfo object has no attribute read")
      | PyFile.pyNone =>
        let u := document_uri.getD ""
        match fs u with
        | none => Except.error (IngestError.http 404 ("File not found: " ++ u))
        | some txt => finishIngest db connectOk size ov (clean_text txt) u metadata_dict

/-- The response part of an ingest outcome (the rows are the database's
state, not part of the HTTP answer). -/
def respOnly (r : Except IngestError (IngestResponse × List Row)) :
    Except IngestError IngestResponse :=
  r.map Prod.fst

/-! ## Batch orchestrator (`ingest_batch`, src/src/main.py lines 233-257) -/

/-- `str(e)` for a caught exception, as recorded in a failure entry. -/
def errString : IngestError → String
  | IngestError.http code detail => toString code ++ ": " ++ detail
  | IngestError.connectFailed => "connection failed"
  | IngestError.attributeError detail => detail

/-- One per-document entry of the batch results list (lines 245 and 248). -/
structure BatchItem where
  uri : String
  success : Bool
  chunks : Option Nat
  error : Option String
deriving DecidableEq, Repr

/-- The aggregate summary (lines 252-257). -/
structure BatchSummary where
  total : Nat
  successful : Nat
  failed : Nat
  results : List BatchItem
deriving DecidableEq, Repr

/-- The body of the batch loop (src/src/main.py lines 241-248): call
`ingest_document(document_uri=uri, metadata="\x7b\x7d")` — a direct
Python call, not an HTTP request, so the omitted `file` and `text_content`
arguments keep their declared defaults `File(None)` and `Form(None)`, the
truthy `FieldInfo` sentinels — and record a success entry with the chunk
count or, when any exception is caught, a failure entry with the error
text. -/
def batchItem (fs : String → Option (List Char)) (db : Chunk → Bool)
    (connectOk : Bool) (size ov : Nat)
    (jp : String → Option (List (String × String))) (uri : String) : BatchItem :=
  match ingest_document fs db connectOk size ov jp PyFile.fieldInfo (some uri)
      PyText.fieldInfo "\x7b\x7d" with
  | Except.ok r =>
    { uri := uri, success := true, chunks := some r.1.chunks_created, error := none }
  | Except.error e =>
    { uri := uri, success := false, chunks := none, error := some (errString e) }

/-- `ingest_batch` (src/src/main.py lines 233-257): one sequential
`batchItem` per identifier, in input order, each failure caught and
recorded so the loop continues; then the aggregate summary. -/
def ingest_batch (fs : String → Option (List Char)) (db : Chunk → Bool)
    (connectOk : Bool) (size ov : Nat)
    (jp : String → Option (List (String × String)))
    (document_uris : List String) : BatchSummary :=
  let results := document_uris.map (batchItem fs db connectOk size ov jp)
  { total := document_uris.length,
    successful := results.countP (fun r => r.success),
    failed := document_uris.length - results.countP (fun r => r.success),
    results := results }

/-! ## Bulk-fetch utility (`src/scripts/ingest-from-minio.py`) -/

/-- Python's `files[:n]` slice: a nonnegative bound takes the first `n`
elements, a negative bound drops the last `|n|`. -/
def pySliceTo (n : Int) (files : List String) : List String :=
  if 0 ≤ n then files.take n.toNat
  else files.take (files.length - (-n).toNat)

/-- Lines 211-214 of the utility: `if args.limit: files = files[:args.limit]`.
The guard is Python truthiness, so both an absent `--limit` and
`--limit 0` leave the file list untouched; the subsequent loop processes
every element of the returned list. -/
def limitFiles (limit : Option Int) (files : List String) : List String :=
  match limit with
  | none => files
  | some n => if n ≠ 0 then pySliceTo n files else files

/-! ## Helper lemmas: segment lists -/

theorem totalLen_nil : totalLen [] = 0 := rfl

theorem totalLen_cons (s : List Char) (l : List (List Char)) :
    totalLen (s :: l) = s.length + totalLen l := by
  simp [totalLen]

theorem totalLen_append (l₁ l₂ : List (List Char)) :
    totalLen (l₁ ++ l₂) = totalLen l₁ + totalLen l₂ := by
  simp [totalLen]

theorem length_flatten_eq (l : List (List Char)) : l.flatten.length = totalLen l := by
  simp [totalLen, List.length_flatten]

theorem isPrefixOf_append_drop {sep cs : List Char} (h : sep.isPrefixOf cs) :
    sep ++ cs.drop sep.length = cs := by
  obtain ⟨t, rfl⟩ := List.isPrefixOf_iff_prefix.mp h
  simp [List.drop_left]

theorem flatten_suffix {l₁ l₂ : List (List Char)} (h : l₁ <:+ l₂) :
    l₁.flatten <:+ l₂.flatten := by
  obtain ⟨p, rfl⟩ := h
  exact ⟨p.flatten, (List.flatten_append p l₁).symm⟩

theorem flatten_map_singleton (text : List Char) :
    (text.map (fun c => [c])).flatten = text := by
  induction text with
  | nil => rfl
  | cons c rest ih => simp [ih]

/-! ## Helper lemmas: separator splitting -/

theorem splitSepAux_flatten (sep : List Char) :
    ∀ (fuel : Nat) (acc cs : List Char),
      (splitSepAux sep fuel acc cs).flatten = acc ++ cs := by
  intro fuel
  induction fuel with
  | zero => intro acc cs; simp [splitSepAux]
  | succ n ih =>
    intro acc cs
    cases cs with
    | nil => simp [splitSepAux]
    | cons c rest =>
      rw [splitSepAux]
      split
      · next h =>
        simp only [List.flatten_cons, ih, List.nil_append, List.append_assoc]
        rw [isPrefixOf_append_drop h.2]
      · next _ =>
        rw [ih]
        simp

theorem flatten_filter_ne_nil (l : List (List Char)) :
    (l.filter (fun s => !s.isEmpty)).flatten = l.flatten := by
  induction l with
  | nil => rfl
  | cons s rest ih =>
    by_cases h : s = []
    · subst h; simp [ih]
    · simp [List.filter_cons, h, ih]

theorem splitKeepSep_flatten (sep text : List Char) :
    (splitKeepSep sep text).flatten = text := by
  unfold splitKeepSep
  rw [flatten_filter_ne_nil, splitSepAux_flatten]
  rfl

/-! ## Helper lemmas: overlap carry -/

theorem carryTail_suffix (budget : Nat) :
    ∀ l : List (List Char), carryTail budget l <:+ l := by
  intro l
  induction l with
  | nil => exact List.suffix_refl _
  | cons s rest ih =>
    rw [carryTail]
    split
    · exact List.suffix_refl _
    · exact ih.trans (List.suffix_cons s rest)

theorem carryTail_totalLen (budget : Nat) :
    ∀ l : List (List Char), totalLen (carryTail budget l) ≤ budget := by
  intro l
  induction l with
  | nil => simp [carryTail, totalLen]
  | cons s rest ih =>
    rw [carryTail]
    split
    · next h => exact h
    · exact ih

/-! ## Helper lemmas: reassembly -/

theorem reasmFrom_congr {ov : Nat} {prev : List Char} {cs : List (List Char)}
    {t t' : List Char} (h : ReasmFrom ov prev cs t) (he : t = t') :
    ReasmFrom ov prev cs t' := he ▸ h

theorem reasmFrom_of_reassembles {ov : Nat} {chunks : List (List Char)} {text : List Char}
    (prev : List Char) (h : Reassembles ov chunks text) : ReasmFrom ov prev chunks text := by
  cases h with
  | nil => exact ReasmFrom.nil prev
  | cons c cs t hrec =>
    have := ReasmFrom.cons prev c cs t 0 (Nat.zero_le _) ⟨prev, by simp⟩ hrec
    simpa using this

theorem reasmFrom_append {ov : Nat} :
    ∀ (cs1 : List (List Char)) (t1 prev : List Char) (cs2 : List (List Char)) (t2 : List Char),
      ReasmFrom ov prev cs1 t1 → Reassembles ov cs2 t2 →
      ReasmFrom ov prev (cs1 ++ cs2) (t1 ++ t2) := by
  intro cs1
  induction cs1 with
  | nil =>
    intro t1 prev cs2 t2 h1 h2
    cases h1
    simpa using reasmFrom_of_reassembles prev h2
  | cons c cs ih =>
    intro t1 prev cs2 t2 h1 h2
    cases h1 with
    | cons _ _ _ t k hk hsuf hrec =>
      have := ReasmFrom.cons prev c (cs ++ cs2) (t ++ t2) k hk hsuf (ih t c cs2 t2 hrec h2)
      simpa [List.append_assoc] using this

theorem reassembles_append {ov : Nat} {l₁ l₂ : List (List Char)} {t₁ t₂ : List Char}
    (h1 : Reassembles ov l₁ t₁) (h2 : Reassembles ov l₂ t₂) :
    Reassembles ov (l₁ ++ l₂) (t₁ ++ t₂) := by
  cases h1 with
  | nil => simpa using h2
  | cons c cs t hrec =>
    have := Reassembles.cons c (cs ++ l₂) (t ++ t₂) (reasmFrom_append cs t c l₂ t₂ hrec h2)
    simpa [List.append_assoc] using this

/-! ## Helper lemmas: greedy merge -/

theorem mergeAux_spec (size ov : Nat) :
    ∀ (segs cur : List (List Char)), cur ≠ [] →
      ∃ ext cs t,
        mergeAux size ov cur segs = (cur.flatten ++ ext) :: cs ∧
        segs.flatten = ext ++ t ∧
        ReasmFrom ov (cur.flatten ++ ext) cs t := by
  intro segs
  induction segs with
  | nil =>
    intro cur hcur
    refine ⟨[], [], [], ?_, rfl, ReasmFrom.nil _⟩
    simp [mergeAux, hcur]
  | cons d rest ih =>
    intro cur hcur
    rw [mergeAux]
    split
    · obtain ⟨ext, cs, t, h1, h2, h3⟩ := ih (cur ++ [d]) (by simp)
      have hfl : (cur ++ [d]).flatten ++ ext = cur.flatten ++ (d ++ ext) := by
        simp [List.flatten_append, List.append_assoc]
      refine ⟨d ++ ext, cs, t, ?_, ?_, ?_⟩
      · rw [h1, hfl]
      · simp only [List.flatten_cons]
        rw [h2, List.append_assoc]
      · rwa [hfl] at h3
    · obtain ⟨ext, cs, t, h1, h2, h3⟩ :=
        ih (carryTail (min ov (size - d.length)) cur ++ [d]) (by simp)
      refine ⟨[], mergeAux size ov (carryTail (min ov (size - d.length)) cur ++ [d]) rest,
        d ++ rest.flatten, by simp, by simp, ?_⟩
      rw [List.append_nil, h1]
      have hfl : (carryTail (min ov (size - d.length)) cur ++ [d]).flatten ++ ext =
          (carryTail (min ov (size - d.length)) cur).flatten ++ (d ++ ext) := by
        simp [List.flatten_append, List.append_assoc]
      rw [hfl] at h3 ⊢
      set carry := carryTail (min ov (size - d.length)) cur with hcdef
      have hk : carry.flatten.length ≤ ov := by
        rw [length_flatten_eq]
        exact le_trans (carryTail_totalLen _ cur) (Nat.min_le_left _ _)
      have hsuf : ((carry.flatten ++ (d ++ ext)).take carry.flatten.length) <:+ cur.flatten := by
        rw [List.take_left]
        exact flatten_suffix (carryTail_suffix _ cur)
      have := ReasmFrom.cons cur.flatten (carry.flatten ++ (d ++ ext)) cs t
        carry.flatten.length hk hsuf h3
      refine reasmFrom_congr this ?_
      rw [List.drop_left]
      rw [h2]
      simp [List.append_assoc]

theorem mergeSplits_reasm (size ov : Nat) (segs : List (List Char)) :
    Reassembles ov (mergeSplits size ov segs) segs.flatten := by
  cases segs with
  | nil => exact Reassembles.nil
  | cons d rest =>
    unfold mergeSplits
    rw [mergeAux]
    have hcond : totalLen ([] : List (List Char)) + d.length ≤ size ∨
        ([] : List (List Char)) = [] := Or.inr rfl
    rw [if_pos hcond]
    obtain ⟨ext, cs, t, h1, h2, h3⟩ := mergeAux_spec size ov rest [d] (by simp)
    rw [show ([] : List (List Char)) ++ [d] = [d] by rfl]
    have hd : ([d] : List (List Char)).flatten = d := by simp
    rw [hd] at h1 h3
    rw [h1]
    have := Reassembles.cons (d ++ ext) cs t h3
    refine ?_
    have hq : (d :: rest).flatten = (d ++ ext) ++ t := by
      simp only [List.flatten_cons]
      rw [h2, List.append_assoc]
    rw [hq]
    exact this

/-! ## Helper lemmas: grouping and the recursive splitter -/

theorem groupGood_flat (size : Nat) :
    ∀ segs : List (List Char),
      ((groupGood size segs).map flatGroup).flatten = segs.flatten := by
  intro segs
  induction segs with
  | nil => rfl
  | cons s rest ih =>
    rw [groupGood]
    split
    · split
      · next run gs heq =>
        rw [heq] at ih
        simp only [List.map_cons, flatGroup, List.flatten_cons] at ih ⊢
        rw [← ih]
        simp [List.append_assoc]
      · next heq =>
        simp only [List.map_cons, flatGroup, List.flatten_cons] at ih ⊢
        rw [ih]
        simp
    · simp only [List.map_cons, flatGroup, List.flatten_cons]
      rw [ih]

theorem processGroups_reasm (size ov : Nat) (recFn : List Char → List (List Char))
    (hrec : ∀ b, Reassembles ov (recFn b) b) :
    ∀ gs, Reassembles ov (processGroups size ov recFn gs) ((gs.map flatGroup).flatten) := by
  intro gs
  induction gs with
  | nil => exact Reassembles.nil
  | cons g rest ih =>
    cases g with
    | inl run =>
      rw [processGroups]
      simp only [List.map_cons, List.flatten_cons, flatGroup]
      exact reassembles_append (mergeSplits_reasm size ov run) ih
    | inr big =>
      rw [processGroups]
      simp only [List.map_cons, List.flatten_cons, flatGroup]
      exact reassembles_append (hrec big) ih

theorem splitTextRec_reasm (size ov : Nat) :
    ∀ (seps : List (List Char)) (text : List Char),
      Reassembles ov (splitTextRec size ov seps text) text := by
  intro seps
  induction seps with
  | nil =>
    intro text
    simp only [splitTextRec]
    have := mergeSplits_reasm size ov (text.map (fun c => [c]))
    rwa [flatten_map_singleton] at this
  | cons sep rest ih =>
    intro text
    simp only [splitTextRec]
    have := processGroups_reasm size ov (splitTextRec size ov rest) ih
      (groupGood size (splitKeepSep sep text))
    rwa [groupGood_flat, splitKeepSep_flatten] at this

theorem splitText_reasm (size ov : Nat) (text : List Char) :
    Reassembles ov (splitText size ov text) text :=
  splitTextRec_reasm size ov default_separators text

/-! ## Helper lemmas: chunk length bound -/

theorem mergeAux_bound (size ov : Nat) :
    ∀ (segs cur : List (List Char)),
      (∀ d ∈ segs, d.length ≤ size) → totalLen cur ≤ size →
      ∀ c ∈ mergeAux size ov cur segs, c.length ≤ size := by
  intro segs
  induction segs with
  | nil =>
    intro cur _ hcur c hc
    rw [mergeAux] at hc
    split at hc
    · simp at hc
    · simp only [List.mem_singleton] at hc
      subst hc
      rw [length_flatten_eq]; exact hcur
  | cons d rest ih =>
    intro cur hgood hcur c hc
    rw [mergeAux] at hc
    have hd : d.length ≤ size := hgood d (List.mem_cons_self d rest)
    split at hc
    · next hcond =>
      refine ih (cur ++ [d]) (fun x hx => hgood x (List.mem_cons_of_mem d hx)) ?_ c hc
      rcases hcond with h | h
      · rw [totalLen_append]
        simpa [totalLen] using h
      · subst h
        simpa [totalLen] using hd
    · rcases List.mem_cons.mp hc with rfl | hc'
      · rw [length_flatten_eq]; exact hcur
      · refine ih _ (fun x hx => hgood x (List.mem_cons_of_mem d hx)) ?_ c hc'
        rw [totalLen_append]
        have h1 : totalLen (carryTail (min ov (size - d.length)) cur) ≤ size - d.length :=
          le_trans (carryTail_totalLen _ cur) (Nat.min_le_right _ _)
        have h2 : totalLen [d] = d.length := by simp [totalLen]
        omega

theorem mergeSplits_bound (size ov : Nat) (segs : List (List Char))
    (hgood : ∀ d ∈ segs, d.length ≤ size) :
    ∀ c ∈ mergeSplits size ov segs, c.length ≤ size :=
  mergeAux_bound size ov segs [] hgood (by simp [totalLen])

theorem mem_processGroups {size ov : Nat} {recFn : List Char → List (List Char)} :
    ∀ {gs} {c : List Char}, c ∈ processGroups size ov recFn gs →
      (∃ run, Sum.inl run ∈ gs ∧ c ∈ mergeSplits size ov run) ∨
      (∃ b, Sum.inr b ∈ gs ∧ c ∈ recFn b) := by
  intro gs
  induction gs with
  | nil => intro c hc; simp [processGroups] at hc
  | cons g rest ih =>
    intro c hc
    cases g with
    | inl run =>
      rw [processGroups] at hc
      rcases List.mem_append.mp hc with h | h
      · exact Or.inl ⟨run, List.mem_cons_self _ _, h⟩
      · rcases ih h with ⟨r, hr, hcr⟩ | ⟨b, hb, hcb⟩
        · exact Or.inl ⟨r, List.mem_cons_of_mem _ hr, hcr⟩
        · exact Or.inr ⟨b, List.mem_cons_of_mem _ hb, hcb⟩
    | inr big =>
      rw [processGroups] at hc
      rcases List.mem_append.mp hc with h | h
      · exact Or.inr ⟨big, List.mem_cons_self _ _, h⟩
      · rcases ih h with ⟨r, hr, hcr⟩ | ⟨b, hb, hcb⟩
        · exact Or.inl ⟨r, List.mem_cons_of_mem _ hr, hcr⟩
        · exact Or.inr ⟨b, List.mem_cons_of_mem _ hb, hcb⟩

theorem groupGood_inl_good (size : Nat) :
    ∀ (segs run : List (List Char)), Sum.inl run ∈ groupGood size segs →
      ∀ x ∈ run, x.length ≤ size := by
  intro segs
  induction segs with
  | nil => intro run h; simp [groupGood] at h
  | cons s rest ih =>
    intro run hrun x hx
    rw [groupGood] at hrun
    split at hrun
    · next hs =>
      split at hrun
      · next r gs heq =>
        rcases List.mem_cons.mp hrun with hr | hr
        · cases Sum.inl.injEq _ _ ▸ hr
          rcases List.mem_cons.mp hx with rfl | hx'
          · exact hs
          · refine ih r ?_ x hx'
            rw [heq]; exact List.mem_cons_self _ _
        · refine ih run ?_ x hx
          rw [heq]; exact List.mem_cons_of_mem _ hr
      · next heq =>
        rcases List.mem_cons.mp hrun with hr | hr
        · cases Sum.inl.injEq _ _ ▸ hr
          rcases List.mem_cons.mp hx with rfl | hx'
          · exact hs
          · simp at hx'
        · exact ih run hr x hx
    · rcases List.mem_cons.mp hrun with hr | hr
      · exact absurd hr (by simp)
      · exact ih run hr x hx

theorem splitTextRec_bound (size ov : Nat) (hsize : 1 ≤ size) :
    ∀ (seps : List (List Char)) (text c : List Char),
      c ∈ splitTextRec size ov seps text → c.length ≤ size := by
  intro seps
  induction seps with
  | nil =>
    intro text c hc
    simp only [splitTextRec] at hc
    refine mergeSplits_bound size ov _ ?_ c hc
    intro d hd
    simp only [List.mem_map] at hd
    obtain ⟨a, _, rfl⟩ := hd
    simpa using hsize
  | cons sep rest ih =>
    intro text c hc
    simp only [splitTextRec] at hc
    rcases mem_processGroups hc with ⟨run, hrun, hcr⟩ | ⟨b, _, hcb⟩
    · exact mergeSplits_bound size ov run (groupGood_inl_good size _ run hrun) c hcr
    · exact ih b c hcb

/-! ## Helper lemmas: empty input -/

theorem splitKeepSep_nil (sep : List Char) : splitKeepSep sep [] = [] := rfl

theorem splitTextRec_empty (size ov : Nat) :
    ∀ seps : List (List Char), splitTextRec size ov seps [] = [] := by
  intro seps
  cases seps with
  | nil => rfl
  | cons sep rest =>
    simp only [splitTextRec, splitKeepSep_nil, groupGood, processGroups]

theorem splitText_eq_nil_iff (size ov : Nat) (text : List Char) :
    splitText size ov text = [] ↔ text = [] := by
  constructor
  · intro h
    have := splitText_reasm size ov text
    rw [h] at this
    cases this
    rfl
  · intro h
    subst h
    exact splitTextRec_empty size ov default_separators

/-! ## Helper lemmas: chunk projections -/

theorem chunk_text_texts (size ov : Nat) (text : List Char) :
    (chunk_text size ov text).map Chunk.text = splitText size ov text := by
  unfold chunk_text
  rw [List.map_map]
  have h : (Chunk.text ∘ fun p : Nat × List Char =>
      ({ text := p.2, chunk_num := p.1 } : Chunk)) = Prod.snd := rfl
  rw [h, List.enum_map_snd]

theorem chunk_text_nums (size ov : Nat) (text : List Char) :
    (chunk_text size ov text).map Chunk.chunk_num =
      List.range (chunk_text size ov text).length := by
  unfold chunk_text
  rw [List.map_map, List.length_map, List.enum_length]
  have h : (Chunk.chunk_num ∘ fun p : Nat × List Char =>
      ({ text := p.2, chunk_num := p.1 } : Chunk)) = Prod.fst := rfl
  rw [h, List.enum_map_fst]

theorem chunk_text_length (size ov : Nat) (text : List Char) :
    (chunk_text size ov text).length = (splitText size ov text).length := by
  unfold chunk_text
  rw [List.length_map, List.enum_length]

theorem reasmFrom_drops {ov : Nat} {prev : List Char} {cs : List (List Char)}
    {t : List Char} (h : ReasmFrom ov prev cs t) :
    ∃ drops : List Nat, drops.length = cs.length ∧
      (List.zipWith List.drop drops cs).flatten = t := by
  induction h with
  | nil => exact ⟨[], rfl, rfl⟩
  | cons prev c cs t k hk hsuf hrec ih =>
    obtain ⟨ds, hlen, hflat⟩ := ih
    exact ⟨k :: ds, by simp [hlen], by simp [hflat]⟩

theorem reassembles_drops {ov : Nat} {chunks : List (List Char)} {text : List Char}
    (h : Reassembles ov chunks text) :
    ∃ drops : List Nat, drops.length = chunks.length ∧
      (List.zipWith List.drop drops chunks).flatten = text := by
  cases h with
  | nil => exact ⟨[], rfl, rfl⟩
  | cons c cs t hrec =>
    obtain ⟨ds, hlen, hflat⟩ := reasmFrom_drops hrec
    exact ⟨0 :: ds, by simp [hlen], by simp [hflat]⟩

/-! ## Claim theorems: chunker -/

/-- C1: for every input text and parameters with `chunk_size > chunk_overlap > 0`,
`chunk_text` returns chunks whose text length is at most `chunk_size`, whose
`chunk_num` tags are exactly `0..n-1` in order, and the result is empty iff
the input text is empty. -/
theorem chunk_text_bounds_and_numbering (size ov : Nat) (text : List Char)
    (hov : 0 < ov) (hlt : ov < size) :
    (∀ c ∈ chunk_text size ov text, c.text.length ≤ size) ∧
    (chunk_text size ov text).map Chunk.chunk_num =
      List.range (chunk_text size ov text).length ∧
    (chunk_text size ov text = [] ↔ text = []) := by
  refine ⟨?_, chunk_text_nums size ov text, ?_, ?_⟩
  · intro c hc
    have hsize : 1 ≤ size := by omega
    have hmem : c.text ∈ (chunk_text size ov text).map Chunk.text :=
      List.mem_map_of_mem _ hc
    rw [chunk_text_texts] at hmem
    exact splitTextRec_bound size ov hsize default_separators text c.text hmem
  · intro h
    have hm := congrArg (List.map Chunk.text) h
    rw [chunk_text_texts] at hm
    simp only [List.map_nil] at hm
    exact (splitText_eq_nil_iff size ov text).mp hm
  · intro h
    subst h
    unfold chunk_text
    rw [(splitText_eq_nil_iff size ov []).mpr rfl]
    rfl

/-- Witness for C1 at the default configuration on a two-character text. -/
theorem chunk_text_bounds_and_numbering_witness :
    (∀ c ∈ chunk_text 800 150 ['h', 'i'], c.text.length ≤ 800) ∧
    (chunk_text 800 150 ['h', 'i']).map Chunk.chunk_num =
      List.range (chunk_text 800 150 ['h', 'i']).length ∧
    (chunk_text 800 150 ['h', 'i'] = [] ↔ (['h', 'i'] : List Char) = []) :=
  chunk_text_bounds_and_numbering 800 150 ['h', 'i'] (by decide) (by decide)

/-- C3: the sanitizer's output contains no null character, and `clean_text`
is idempotent.  (Totality — "never raises" — is inherent: `clean_text` is a
total function of its input.) -/
theorem clean_text_no_null_idempotent (text : List Char) :
    ((clean_text text).all (fun c => c != '\x00')) = true ∧
    clean_text (clean_text text) = clean_text text := by
  constructor
  · simp only [List.all_eq_true]
    intro c hc
    exact (List.mem_filter.mp (List.mem_filter.mp hc).1).2
  · have hp : ∀ c ∈ clean_text text, (c != '\x00') = true := by
      intro c hc
      exact (List.mem_filter.mp (List.mem_filter.mp hc).1).2
    have hq : ∀ c ∈ clean_text text, (!isStrippedControl c) = true := by
      intro c hc
      exact (List.mem_filter.mp hc).2
    nth_rewrite 1 [clean_text]
    rw [List.filter_eq_self.mpr hp, List.filter_eq_self.mpr hq]

/-- C4: the chunks cover the whole input: dropping each chunk's carried
(overlapping) prefix and concatenating what remains reproduces the input
text exactly, so no character of the input falls outside every chunk. -/
theorem chunk_text_covers_input (size ov : Nat) (text : List Char) :
    ∃ drops : List Nat,
      drops.length = (chunk_text size ov text).length ∧
      (List.zipWith List.drop drops
        ((chunk_text size ov text).map Chunk.text)).flatten = text := by
  obtain ⟨ds, hlen, hflat⟩ := reassembles_drops (splitText_reasm size ov text)
  refine ⟨ds, ?_, ?_⟩
  · rw [chunk_text_length]; exact hlen
  · rw [chunk_text_texts]; exact hflat

/-- C7: consecutive chunks overlap by at most `chunk_overlap` characters:
`Reassembles` exhibits, for each chunk after the first, the carried prefix
it shares with (a suffix of) its predecessor, of length `k ≤ ov`, such that
the fresh remainders reconstruct the input. -/
theorem chunk_text_overlap_bounded (size ov : Nat) (text : List Char) :
    Reassembles ov ((chunk_text size ov text).map Chunk.text) text := by
  rw [chunk_text_texts]
  exact splitText_reasm size ov text

/-! ## Helper lemmas: persistence and endpoint -/

theorem countP_add_countP_not {α : Type} (p : α → Bool) (l : List α) :
    l.countP p + l.countP (fun a => !(p a)) = l.length := by
  induction l with
  | nil => rfl
  | cons a rest ih => by_cases h : p a <;> simp [List.countP_cons, h] <;> omega

theorem insert_chunks_fst (db : Chunk → Bool) :
    ∀ (chunks : List Chunk) (uri : String) (md : List (String × String)),
      (insert_chunks db chunks uri md).1 = chunks.countP db := by
  intro chunks uri md
  induction chunks with
  | nil => rfl
  | cons c rest ih =>
    rw [insert_chunks]
    by_cases h : db c <;> simp [h, List.countP_cons, ih]

theorem insert_chunks_snd (db : Chunk → Bool) :
    ∀ (chunks : List Chunk) (uri : String) (md : List (String × String)),
      (insert_chunks db chunks uri md).2 =
        (chunks.filter db).map (fun c => mkRow c uri md) := by
  intro chunks uri md
  induction chunks with
  | nil => rfl
  | cons c rest ih =>
    rw [insert_chunks]
    by_cases h : db c <;> simp [h, List.filter_cons, ih]

theorem chunk_text_empty (size ov : Nat) : chunk_text size ov [] = [] := by
  unfold chunk_text
  rw [(splitText_eq_nil_iff size ov []).mpr rfl]
  rfl

theorem finishIngest_resp (db : Chunk → Bool) (c : Bool) (size ov : Nat)
    (text : List Char) (uri : String) (md₁ md₂ : List (String × String)) :
    respOnly (finishIngest db c size ov text uri md₁) =
    respOnly (finishIngest db c size ov text uri md₂) := by
  unfold finishIngest respOnly
  by_cases hc : c = true
  · simp [hc, insert_chunks_fst, Except.map]
  · simp [hc]

theorem batchItem_direct_call (fs : String → Option (List Char)) (db : Chunk → Bool)
    (connectOk : Bool) (size ov : Nat)
    (jp : String → Option (List (String × String))) (u : String) :
    batchItem fs db connectOk size ov jp u =
      { uri := u, success := false, chunks := none,
        error := some "FieldInfo object has no attribute replace" } := rfl

/-! ## Claim theorems: persistence and endpoints -/

/-- C6: persisting the chunks of one document is best-effort: every chunk
is attempted, a failed insert is swallowed (the rows written are exactly
the successfully inserted chunks, in order), the operation itself never
fails the document, and the returned count equals the number of successful
inserts — so each chunk-level failure reduces the reported count by
exactly one (count + failures = number of chunks). -/
theorem insert_chunks_best_effort (db : Chunk → Bool) (chunks : List Chunk)
    (uri : String) (md : List (String × String)) :
    (insert_chunks db chunks uri md).1 = chunks.countP db ∧
    (insert_chunks db chunks uri md).1 + chunks.countP (fun c => !(db c)) = chunks.length ∧
    (insert_chunks db chunks uri md).2 = (chunks.filter db).map (fun c => mkRow c uri md) :=
  ⟨insert_chunks_fst db chunks uri md,
   by rw [insert_chunks_fst]; exact countP_add_countP_not db chunks,
   insert_chunks_snd db chunks uri md⟩

/-- C2: refuted as the code stands — the claim (and the spec's
batch-isolation property, which is clearly the intent) does not hold of
`ingest_batch` as written.  Line 244 calls the endpoint function directly,
so the omitted `file` and `text_content` parameters keep their declared
FastAPI defaults `File(None)` and `Form(None)`: truthy `FieldInfo`
sentinels, not `None`.  Every call therefore passes the `any([...])`
guard, enters the `if text_content:` branch, and raises `AttributeError`
inside `clean_text` at line 172; the loop catches it and records a
failure for every document.  Whatever the filesystem, database and
identifiers — including a batch in which exactly one identifier fails
resolution — the summary is `successful = 0` and `failed = N`, never
`N-1` and `1`.  The final conjuncts evaluate the failing input: three
identifiers of which exactly one (`"b"`) fails resolution, yet 0 succeed
and 3 fail. -/
theorem ingest_batch_every_document_fails :
    (∀ (fs : String → Option (List Char)) (db : Chunk → Bool) (connectOk : Bool)
        (size ov : Nat) (jp : String → Option (List (String × String)))
        (uris : List String),
      (ingest_batch fs db connectOk size ov jp uris).successful = 0 ∧
      (ingest_batch fs db connectOk size ov jp uris).failed = uris.length ∧
      (ingest_batch fs db connectOk size ov jp uris).results.map (fun r => r.success) =
        uris.map (fun _ => false)) ∧
    (["a", "b", "c"] : List String).countP
      (fun u => u == "" || (if u == "b" then (none : Option (List Char))
        else some ['x']).isNone) = 1 ∧
    (ingest_batch (fun u => if u == "b" then none else some ['x']) (fun _ => true) true 800 150
      (fun _ => none) ["a", "b", "c"]).successful = 0 ∧
    (ingest_batch (fun u => if u == "b" then none else some ['x']) (fun _ => true) true 800 150
      (fun _ => none) ["a", "b", "c"]).failed = 3 := by
  refine ⟨?_, by decide, by decide, by decide⟩
  intro fs db connectOk size ov jp uris
  have hzero : (uris.map (batchItem fs db connectOk size ov jp)).countP
      (fun r => r.success) = 0 := by
    rw [List.countP_map]
    refine List.countP_eq_zero.mpr ?_
    intro u _
    simp [Function.comp, batchItem_direct_call fs db connectOk size ov jp u]
  refine ⟨?_, ?_, ?_⟩
  · simp only [ingest_batch]
    exact hzero
  · simp only [ingest_batch]
    rw [hzero]
    omega
  · simp only [ingest_batch, List.map_map]
    refine List.map_congr_left ?_
    intro u _
    simp [Function.comp, batchItem_direct_call fs db connectOk size ov jp u]

/-- C5 counterexample: empty text given as the endpoint's content through
`text_content` is rejected with 400 — Python's truthiness makes the empty
string count as "no content source" — rather than answered with
`success = true` and `chunks_created = 0` as the claim states. -/
theorem ingest_empty_text_content_rejected :
    ingest_document (fun _ => none) (fun _ => true) true 800 150 (fun _ => none)
      PyFile.pyNone none (PyText.str []) "nope" =
    Except.error (IngestError.http 400 "Must provide file, document_uri, or text_content") := by
  rfl

/-- C5 amended: empty text reaching the endpoint through an uploaded file
with a supported extension, or through a `document_uri` resolving to an
empty file, yields an empty chunk list and `success = true` with
`chunks_created = 0`; but empty text supplied via `text_content` alone is
rejected with a 400 client error, because the empty string is falsy. -/
theorem ingest_empty_text_zero_chunks (fs : String → Option (List Char)) (db : Chunk → Bool)
    (size ov : Nat) (jp : String → Option (List (String × String))) :
    (∀ f : FileUpload, f.content = [] → hasSupportedExt f.filename = true →
      ingest_document fs db true size ov jp (PyFile.upload f) none PyText.pyNone "\x7b\x7d" =
        Except.ok ({ success := true, document_uri := f.filename, chunks_created := 0,
                     message := "Successfully ingested 0 chunks from " ++ f.filename }, [])) ∧
    (∀ u, u ≠ "" → fs u = some [] →
      ingest_document fs db true size ov jp PyFile.pyNone (some u) PyText.pyNone "\x7b\x7d" =
        Except.ok ({ success := true, document_uri := u, chunks_created := 0,
                     message := "Successfully ingested 0 chunks from " ++ u }, [])) ∧
    (∀ m, ingest_document fs db true size ov jp PyFile.pyNone none (PyText.str []) m =
      Except.error (IngestError.http 400 "Must provide file, document_uri, or text_content")) ∧
    chunk_text size ov [] = [] := by
  have hclean : clean_text [] = [] := rfl
  have hchunk : chunk_text size ov [] = [] := chunk_text_empty size ov
  refine ⟨?_, ?_, ?_, hchunk⟩
  · intro f hf he
    simp [ingest_document, truthyFile, truthyText, he, finishIngest, hf, hclean, hchunk,
      insert_chunks]
    rfl
  · intro u hu hfs
    simp [ingest_document, truthyFile, truthyStr, truthyText, hu, hfs, finishIngest, hclean,
      hchunk, insert_chunks]
    rfl
  · intro m
    simp [ingest_document, truthyFile, truthyStr, truthyText]

/-- Witness for C5 (amended): a `document_uri` resolving to an empty file. -/
theorem ingest_empty_text_zero_chunks_witness :
    ingest_document (fun _ => some []) (fun _ => true) true 800 150 (fun _ => none)
      PyFile.pyNone (some "a") PyText.pyNone "\x7b\x7d" =
    Except.ok ({ success := true, document_uri := "a", chunks_created := 0,
                 message := "Successfully ingested 0 chunks from a" }, []) :=
  (ingest_empty_text_zero_chunks (fun _ => some []) (fun _ => true) 800 150
    (fun _ => none)).2.1 "a" (by decide) rfl

/-- C9: a metadata form field that fails to parse never causes an error
and never changes the HTTP response: the response is the same for any two
metadata strings, and when the external JSON parse fails the whole outcome
(persisted rows included) is as if the metadata had parsed to the empty
mapping. -/
theorem ingest_metadata_independence :
    (∀ fs db c size ov jp f uri tc m₁ m₂,
      respOnly (ingest_document fs db c size ov jp f uri tc m₁) =
      respOnly (ingest_document fs db c size ov jp f uri tc m₂)) ∧
    (∀ fs db c size ov jp f uri tc m, jp m = none →
      ingest_document fs db c size ov jp f uri tc m =
      ingest_document fs db c size ov (fun _ => some []) f uri tc m) := by
  constructor
  · intro fs db c size ov jp f uri tc m₁ m₂
    simp only [ingest_document]
    by_cases hg : ¬(truthyFile f || truthyStr uri || truthyText tc)
    · rw [if_pos hg, if_pos hg]
    · rw [if_neg hg, if_neg hg]
      by_cases ht : truthyText tc
      · rw [if_pos ht, if_pos ht]
        cases tc with
        | pyNone => rfl
        | fieldInfo => rfl
        | str tcs => exact finishIngest_resp _ _ _ _ _ _ _ _
      · rw [if_neg ht, if_neg ht]
        cases f with
        | pyNone =>
          cases hfs : fs (uri.getD "") with
          | none => rfl
          | some txt => exact finishIngest_resp _ _ _ _ _ _ _ _
        | fieldInfo => rfl
        | upload fl =>
          by_cases he : hasSupportedExt fl.filename
          · simp only [he]
            exact finishIngest_resp _ _ _ _ _ _ _ _
          · simp only [he]
            rfl
  · intro fs db c size ov jp f uri tc m h
    simp [ingest_document, h]

/-- Witness for C9: a metadata string the parser rejects behaves exactly
like the empty mapping. -/
theorem ingest_metadata_independence_witness :
    ingest_document (fun _ => some ['x']) (fun _ => true) true 800 150 (fun _ => none)
      PyFile.pyNone (some "a") PyText.pyNone "not json" =
    ingest_document (fun _ => some ['x']) (fun _ => true) true 800 150 (fun _ => some [])
      PyFile.pyNone (some "a") PyText.pyNone "not json" :=
  ingest_metadata_independence.2 (fun _ => some ['x']) (fun _ => true) true 800 150
    (fun _ => none) PyFile.pyNone (some "a") PyText.pyNone "not json" rfl

/-- C10: content-source precedence at the endpoint.  (1) With truthy
`text_content` the response is the same whatever file or filesystem is
supplied — neither lower-precedence source is read, the URI serving only
as the identifier; (2) with falsy `text_content` and a file present, the
filesystem is never read; (3) with falsy `text_content` and no file,
`document_uri` is resolved as a filesystem path (a missing path gives
404). -/
theorem ingest_content_source_precedence :
    (∀ fs₁ fs₂ db c size ov jp f₁ f₂ uri tc m, truthyText (PyText.str tc) = true →
      ingest_document fs₁ db c size ov jp f₁ uri (PyText.str tc) m =
      ingest_document fs₂ db c size ov jp f₂ uri (PyText.str tc) m) ∧
    (∀ fs₁ fs₂ db c size ov jp fl uri tc m, truthyText tc = false →
      ingest_document fs₁ db c size ov jp (PyFile.upload fl) uri tc m =
      ingest_document fs₂ db c size ov jp (PyFile.upload fl) uri tc m) ∧
    (∀ fs db c size ov jp uri tc m, truthyText tc = false → truthyStr (some uri) = true →
      fs uri = none →
      ingest_document fs db c size ov jp PyFile.pyNone (some uri) tc m =
        Except.error (IngestError.http 404 ("File not found: " ++ uri))) := by
  refine ⟨?_, ?_, ?_⟩
  · intro fs₁ fs₂ db c size ov jp f₁ f₂ uri tc m h
    simp [ingest_document, h]
  · intro fs₁ fs₂ db c size ov jp fl uri tc m h
    simp [ingest_document, truthyFile, h]
  · intro fs db c size ov jp uri tc m h1 h2 hfs
    simp [ingest_document, truthyFile, h1, h2, hfs]

/-- Witness for C10: with non-empty `text_content`, swapping both the file
argument and the whole filesystem leaves the response unchanged. -/
theorem ingest_content_source_precedence_witness :
    ingest_document (fun _ => some ['y']) (fun _ => true) true 800 150 (fun _ => none)
      (PyFile.upload { filename := "a.txt", content := ['z'] }) (some "u") (PyText.str ['x'])
      "m" =
    ingest_document (fun _ => none) (fun _ => true) true 800 150 (fun _ => none)
      PyFile.pyNone (some "u") (PyText.str ['x']) "m" :=
  ingest_content_source_precedence.1 (fun _ => some ['y']) (fun _ => none) (fun _ => true) true
    800 150 (fun _ => none) (PyFile.upload { filename := "a.txt", content := ['z'] })
    PyFile.pyNone (some "u") ['x'] "m" (by decide)

/-! ## Claim theorems: bulk-fetch utility -/

/-- C8 counterexample: `--limit 0` is a non-negative integer, but the
Python truthiness guard `if args.limit:` ignores it, so a one-element
listing is processed in full — more than the 0 objects the claim allows. -/
theorem limit_zero_processes_all :
    limitFiles (some 0) ["doc"] = ["doc"] ∧ 0 < (limitFiles (some 0) ["doc"]).length := by
  constructor
  · rfl
  · decide

/-- C8 amended: for every positive `N` passed via `--limit`, the utility
processes at most `N` objects; `--limit 0` is ignored (all objects are
processed) because `0` is falsy in Python. -/
theorem limit_positive_caps (n : Int) (files : List String) (hn : 0 < n) :
    (limitFiles (some n) files).length ≤ n.toNat := by
  have hne : n ≠ 0 := by omega
  have h : limitFiles (some n) files = files.take n.toNat := by
    simp [limitFiles, pySliceTo, hne, hn.le]
  rw [h]
  exact List.length_take_le _ _

/-- Witness for C8 (amended): `--limit 2` on a three-element listing. -/
theorem limit_positive_caps_witness :
    (limitFiles (some 2) ["a", "b", "c"]).length ≤ (2 : Int).toNat :=
  limit_positive_caps 2 ["a", "b", "c"] (by decide)

end DocIngest
